import Mathlib

/-!
Verification of the vacuum- repository: the 2248-bot perception-and-decision
engine (modelled from its specification where the Python modules are not in
the source tree) and the bundled Telegram-extraction web frontend
(embedded from the TypeScript sources).
-/

set_option maxRecDepth 4000

namespace Vacuum

/-! ## Frontend: api/types.ts -/

/-- `SearchRequest` from src/frontend/src/api/types.ts. -/
structure SearchRequest where
  from_date : Option String
  to_date : Option String
  limit_per_dialog : Option Nat
deriving DecidableEq, Repr

/-- `SendRequest` from src/frontend/src/api/types.ts. -/
structure SendRequest where
  message_ids : List Int
  dest : String
  mode : String
deriving DecidableEq, Repr

/-- `SendResult` from src/frontend/src/api/types.ts. -/
structure SendResult where
  success : Bool
  successful : Nat
  failed : Nat
  total_processed : Nat
  errors : List String
deriving DecidableEq, Repr

/-! ## Frontend: SearchForm (src/unnamed/part_000, first component)

`handleSubmit` builds the `SearchRequest` passed to `onSearch`.  TypeScript
truthiness on a string is non-emptiness, and on a number it is non-zero-ness. -/

/-- The `SearchRequest` constructed by `SearchForm.handleSubmit` from the
component state `fromDate`, `toDate`, `limitPerDialog`. -/
def searchFormSubmit (fromDate toDate : String) (limitPerDialog : Option Nat) :
    SearchRequest :=
  { from_date := if fromDate ≠ "" then some (fromDate ++ "T00:00:00") else none
    to_date := if toDate ≠ "" then some (toDate ++ "T23:59:59") else none
    limit_per_dialog :=
      match limitPerDialog with
      | some n => if n ≠ 0 then some n else none
      | none => none }

/-! ## Frontend: ResultsTable.tsx -/

/-- `handleCheckboxChange` from src/frontend/src/components/ResultsTable.tsx:
if the id is already selected it is filtered out, otherwise appended. -/
def handleCheckboxChange (selectedIds : List Int) (id : Int) : List Int :=
  if id ∈ selectedIds then
    selectedIds.filter (fun msgId => msgId ≠ id)
  else
    selectedIds ++ [id]

/-! ## Frontend: DestinationForm (src/unnamed/part_000, third component)

`handleSubmit` is stateful React code doing a network call; we embed it as a
pure function from the component's inputs and the environment's response to
the observable outcome: the error message written by `setError`, the requests
issued to the `/api/send` endpoint, and the calls made to `onSendComplete`. -/

/-- Result of the `fetch` call as seen by `DestinationForm.handleSubmit`:
either a thrown error message, a non-ok HTTP status, or a parsed `SendResult`
body. -/
inductive FetchOutcome where
  | threw (msg : String)
  | httpError (status : Nat)
  | ok (body : SendResult)
deriving DecidableEq, Repr

/-- Observable outcome of one `DestinationForm.handleSubmit` call. -/
structure SubmitOutcome where
  errorMsg : Option String
  sentRequests : List SendRequest
  sendCompleteCalls : List SendResult
deriving DecidableEq, Repr

/-- `DestinationForm.handleSubmit`: with an empty selection it sets the
Russian error message and returns; otherwise it posts one request to
`/api/send` and either invokes `onSendComplete` with the parsed body or sets
an error built from the failure. -/
def destinationFormSubmit (selectedIds : List Int) (destination mode : String)
    (fetchResult : FetchOutcome) : SubmitOutcome :=
  if selectedIds.length = 0 then
    { errorMsg := some "Пожалуйста, выберите хотя бы одно сообщение"
      sentRequests := []
      sendCompleteCalls := [] }
  else
    let req : SendRequest :=
      { message_ids := selectedIds, dest := destination, mode := mode }
    match fetchResult with
    | .threw msg =>
        { errorMsg := some ("Ошибка при отправке сообщений: " ++ msg)
          sentRequests := [req]
          sendCompleteCalls := [] }
    | .httpError status =>
        { errorMsg := some ("Ошибка при отправке сообщений: " ++
            "HTTP error! status: " ++ toString status)
          sentRequests := [req]
          sendCompleteCalls := [] }
    | .ok body =>
        { errorMsg := none
          sentRequests := [req]
          sendCompleteCalls := [body] }

/-! ## Grid Size Detector (2248 bot)

Modelled from the spec: the Python module `game_io/screen_capture.py` with
`detect_grid_size` and the bounds validation is not in the source tree (only
its documentation is), so the acceptance logic and the four-tier cascade are
modelled from the spec's words. -/

/-- Modelled from the spec: `GridDimensions`, a pair (rows, columns). -/
structure GridDimensions where
  rows : Nat
  columns : Nat
deriving DecidableEq, Repr

/-- Modelled from the spec: the `[2,10]×[2,10]` bound check on detected grid
dimensions ("Ensures detected grid sizes are within reasonable bounds (2x2 to
10x10)"). -/
def gridDimsValid (d : GridDimensions) : Bool :=
  decide (2 ≤ d.rows) && decide (d.rows ≤ 10) &&
    decide (2 ≤ d.columns) && decide (d.columns ≤ 10)

/-- Modelled from the spec: acceptance of a raw detector result — values
outside the bound are rejected as detection failures, never clamped into
range. -/
def acceptGridDims (d : GridDimensions) : Option GridDimensions :=
  if gridDimsValid d then some d else none

/-- Modelled from the spec: one tier of the detection cascade applied to a
region image, followed by the bound check on its raw result. -/
def tierResult {α : Type} (tier : α → Option GridDimensions) (img : α) :
    Option GridDimensions :=
  (tier img).bind acceptGridDims

/-- Modelled from the spec: the ordered cascade over a list of detection
tiers, short-circuiting on the first tier whose result passes the bound
check. -/
def runCascade {α : Type} : List (α → Option GridDimensions) → α →
    Option GridDimensions
  | [], _ => none
  | t :: ts, img =>
      match tierResult t img with
      | some d => some d
      | none => runCascade ts img

/-- Modelled from the spec: `detect_grid_size`, the four-tier cascade
(contour, enhanced-edge, pattern, spacing) attempted in that fixed order. -/
def detectGridSize {α : Type} (contour enhancedEdge pattern spacing :
    α → Option GridDimensions) (img : α) : Option GridDimensions :=
  runCascade [contour, enhancedEdge, pattern, spacing] img

/-- Modelled from the spec: the controller's last-known-good cache update —
the cache is overwritten only by a successful (hence accepted) detection. -/
def updateCache (cache detected : Option GridDimensions) :
    Option GridDimensions :=
  match detected with
  | some d => some d
  | none => cache

/-- Modelled from the spec: the controller's grid-dimension resolution — on
`DetectionFailed` it reuses the last known-good `GridDimensions` if one
exists. -/
def controllerGridDims {α : Type} (contour enhancedEdge pattern spacing :
    α → Option GridDimensions) (cache : Option GridDimensions) (img : α) :
    Option GridDimensions :=
  match detectGridSize contour enhancedEdge pattern spacing img with
  | some d => some d
  | none => cache

/-! ## Board model and Chain Finder (2248 bot)

Modelled from the spec: the Python module `logic/` with the board state,
chain finding, move simulation and heuristic evaluation is not in the source
tree (only the README describing it is), so these are modelled from the
spec's §3 data model and §4.4–§4.5 component contracts. -/

/-- A grid coordinate (row, column). -/
structure Pos where
  row : Nat
  col : Nat
deriving DecidableEq, Repr

instance : Inhabited Pos := ⟨⟨0, 0⟩⟩

/-- Modelled from the spec: `BoardState`, a rows×columns matrix of cell
values, where a cell is either a tile value (`some v`) or empty (`none`). -/
abbrev Board := List (List (Option Nat))

/-- Number of rows of a board. -/
def boardRows (b : Board) : Nat := b.length

/-- Number of columns of a board (length of its first row). -/
def boardCols (b : Board) : Nat :=
  match b with
  | [] => 0
  | r :: _ => r.length

/-- The cell value at a position; out-of-range positions read as empty. -/
def cellAt (b : Board) (p : Pos) : Option Nat :=
  ((b[p.row]?).bind (fun row => row[p.col]?)).join

/-- The board is a true rows×columns matrix: every row has the common
column count. -/
def isRect (b : Board) : Bool :=
  b.all (fun row => row.length == boardCols b)

/-- All board positions in row-major order. -/
def allPositions (b : Board) : List Pos :=
  ((List.range (boardRows b)).map (fun r =>
    (List.range (boardCols b)).map (fun c => Pos.mk r c))).flatten

/-- 8-neighbour adjacency: distinct positions whose row indices and column
indices each differ by at most one (diagonals included). -/
def adjacent8 (p q : Pos) : Bool :=
  decide (p ≠ q) && decide (max p.row q.row - min p.row q.row ≤ 1) &&
    decide (max p.col q.col - min p.col q.col ≤ 1)

/-- Modelled from the spec: one step of the flood search of `findChains` —
keep, in row-major order, every board position already collected or holding
the value `v` and 8-adjacent to a collected cell. -/
def expandStep (b : Board) (v : Nat) (all cur : List Pos) : List Pos :=
  all.filter (fun q => decide (q ∈ cur) ||
    (decide (cellAt b q = some v) && cur.any (fun p => adjacent8 p q)))

/-- `n`-fold iteration of the flood-search step. -/
def expandIter (b : Board) (v : Nat) (all : List Pos) :
    Nat → List Pos → List Pos
  | 0, cur => cur
  | n + 1, cur => expandIter b v all n (expandStep b v all cur)

/-- Modelled from the spec: the maximal 8-connected component of value-`v`
cells containing `p` (the flood search run to its fixpoint), cells listed in
row-major order. -/
def component (b : Board) (p : Pos) (v : Nat) : List Pos :=
  expandIter b v (allPositions b) (allPositions b).length [p]

/-- Modelled from the spec: the scanning loop of `findChains` — visit the
positions in row-major order, flood the component of each not-yet-visited
tile, and record each component of size at least 2 as one Chain. -/
def chainsLoop (b : Board) :
    List Pos → List Pos → List (List Pos) → List (List Pos)
  | [], _, acc => acc.reverse
  | p :: todo, visited, acc =>
      if p ∈ visited then chainsLoop b todo visited acc
      else
        match cellAt b p with
        | none => chainsLoop b todo visited acc
        | some v =>
            let comp := component b p v
            if 2 ≤ comp.length then
              chainsLoop b todo (visited ++ comp) (comp :: acc)
            else chainsLoop b todo (visited ++ comp) acc

/-- Modelled from the spec: `findChains` — one Chain per maximal 8-connected
component of equal-valued tiles of size at least 2, components discovered and
listed in row-major order. -/
def findChains (b : Board) : List (List Pos) :=
  chainsLoop b (allPositions b) [] []

/-- Reachability inside a fixed cell set through steps to 8-adjacent member
cells: the formal sense in which a Chain is connected. -/
inductive ReachIn (s : List Pos) : Pos → Pos → Prop
  | refl (p : Pos) : ReachIn s p p
  | step {p q r : Pos} : ReachIn s p q → r ∈ s → adjacent8 q r = true →
      ReachIn s p r

/-- The full specification of one returned Chain: distinct cells, at least
two of them, all holding one value `v`, pairwise 8-connected inside the
chain, and maximal (every value-`v` cell adjacent to the chain is in it). -/
def ChainSpec (b : Board) (ch : List Pos) : Prop :=
  ch.Nodup ∧ 2 ≤ ch.length ∧
  ∃ v, (∀ q ∈ ch, cellAt b q = some v) ∧
    (∀ q ∈ ch, ∀ r ∈ ch, ReachIn ch q r) ∧
    (∀ q, cellAt b q = some v → (∃ x ∈ ch, adjacent8 x q = true) → q ∈ ch)

/-! ## Move Simulator & Heuristic Evaluator (2248 bot) -/

/-- The chain's last-visited cell: the last element of its traversal
order. -/
def lastCell (ch : List Pos) : Pos := ch.getLastD ⟨0, 0⟩

/-- Modelled from the spec: the value of one cell after the merge step —
the doubled value at the chain's last-visited cell, empty at the other chain
cells, unchanged elsewhere. -/
def mergeCell (b : Board) (ch : List Pos) (v : Nat) (p : Pos) : Option Nat :=
  if p = lastCell ch then some (2 * v)
  else if p ∈ ch then none
  else cellAt b p

/-- Modelled from the spec: the merge step of simulation — remove all Chain
cells and place a single tile of value `2·v` at the chain's last-visited
cell. -/
def mergeStep (b : Board) (ch : List Pos) (v : Nat) : Board :=
  (List.range (boardRows b)).map (fun r =>
    (List.range (boardCols b)).map (fun c => mergeCell b ch v (Pos.mk r c)))

/-- One row with its tiles slid to the far end and the vacated cells empty.
Modelled from the spec: gravity compaction; the spec leaves the direction to
"the column/row compaction order the game uses", fixed here as row
compaction. -/
def compactRow (row : List (Option Nat)) : List (Option Nat) :=
  List.replicate (row.length - (row.filter Option.isSome).length) none ++
    row.filter Option.isSome

/-- Modelled from the spec: gravity — every row compacted. -/
def applyGravity (b : Board) : Board := b.map compactRow

/-- Modelled from the spec: `SimulatedBoard` — the board after removing the
chain, placing the merged tile, and applying gravity. -/
def simulate (b : Board) (ch : List Pos) (v : Nat) : Board :=
  applyGravity (mergeStep b ch v)

/-- Count of tiles holding value `v` on the board. -/
def countVal (b : Board) (v : Nat) : Nat :=
  (allPositions b).countP (fun p => decide (cellAt b p = some v))

/-- Modelled from the spec: `HeuristicWeights` — one static weight per
scoring term. -/
structure HeuristicWeights where
  maxTile : Int
  emptyCount : Int
  monotonicity : Int
  smoothness : Int
  clusterPenalty : Int
deriving DecidableEq, Repr

/-- Max-tile term: the largest tile value on the board. -/
def maxTileTerm (b : Board) : Int :=
  (((allPositions b).map (fun p => (cellAt b p).getD 0)).foldl max 0 : Nat)

/-- Empty-cell-count term: the number of empty cells. -/
def emptyCountTerm (b : Board) : Int :=
  ((allPositions b).countP (fun p => decide (cellAt b p = none)) : Nat)

/-- Consecutive elements all satisfy the comparison `le`. -/
def monotoneBy (le : Nat → Nat → Bool) : List Nat → Bool
  | [] => true
  | [_] => true
  | a :: b :: rest => le a b && monotoneBy le (b :: rest)

/-- A line of cells is monotone when its tile values, in order, are
non-decreasing or non-increasing. -/
def monotoneLine (l : List (Option Nat)) : Bool :=
  monotoneBy (fun a b => decide (a ≤ b)) (l.filterMap id) ||
    monotoneBy (fun a b => decide (b ≤ a)) (l.filterMap id)

/-- Row `r` of the board as the list of its cell values. -/
def rowLine (b : Board) (r : Nat) : List (Option Nat) :=
  (List.range (boardCols b)).map (fun c => cellAt b ⟨r, c⟩)

/-- Column `c` of the board as the list of its cell values. -/
def colLine (b : Board) (c : Nat) : List (Option Nat) :=
  (List.range (boardRows b)).map (fun r => cellAt b ⟨r, c⟩)

/-- Monotonicity term: the number of monotone rows and columns. Modelled
from the spec's "reward for rows/columns whose values are non-increasing or
non-decreasing in a consistent direction". -/
def monotonicityTerm (b : Board) : Int :=
  (((List.range (boardRows b)).countP (fun r => monotoneLine (rowLine b r)) +
    (List.range (boardCols b)).countP
      (fun c => monotoneLine (colLine b c)) : Nat) : Int)

/-- Absolute difference of two cells' tile values when both hold tiles. -/
def cellDiff (a c : Option Nat) : Nat :=
  match a, c with
  | some x, some y => max x y - min x y
  | _, _ => 0

/-- Smoothness term: minus the summed value differences between horizontally
and vertically adjacent tiles. -/
def smoothnessTerm (b : Board) : Int :=
  -((((allPositions b).map (fun p =>
      cellDiff (cellAt b p) (cellAt b ⟨p.row, p.col + 1⟩) +
        cellDiff (cellAt b p) (cellAt b ⟨p.row + 1, p.col⟩))).sum : Nat) : Int)

/-- A small-value tile for the cluster penalty. Modelled from the spec's
"penalty for many small-value tiles clustered together"; the threshold is
not fixed by the spec and is taken as 4. -/
def isSmallTile (c : Option Nat) : Bool :=
  match c with
  | some x => decide (x ≤ 4)
  | none => false

/-- Cluster-penalty term: minus the number of 8-adjacent ordered pairs of
small tiles. -/
def clusterPenaltyTerm (b : Board) : Int :=
  -((((allPositions b).map (fun p =>
      if isSmallTile (cellAt b p) then
        ((allPositions b).filter (fun q => adjacent8 p q &&
          isSmallTile (cellAt b q))).length
      else 0)).sum : Nat) : Int)

/-- Modelled from the spec: the weighted linear combination of the five
scoring terms. -/
def score (w : HeuristicWeights) (b : Board) : Int :=
  w.maxTile * maxTileTerm b + w.emptyCount * emptyCountTerm b +
    w.monotonicity * monotonicityTerm b + w.smoothness * smoothnessTerm b +
    w.clusterPenalty * clusterPenaltyTerm b

/-- Modelled from the spec: `ScoredMove` — a Chain with the score of its
simulated board. -/
structure ScoredMove where
  chain : List Pos
  score : Int
deriving DecidableEq, Repr

/-- The value shared by the chain's cells, read at its first cell. -/
def chainValue (b : Board) (ch : List Pos) : Nat :=
  (cellAt b (ch.headD ⟨0, 0⟩)).getD 0

/-- Modelled from the spec: `evaluate` — simulate the chain on the board and
score the result. -/
def evaluate (w : HeuristicWeights) (b : Board) (ch : List Pos) :
    ScoredMove :=
  { chain := ch, score := score w (simulate b ch (chainValue b ch)) }

/-- Row-major index of a position on a board with `cols` columns. -/
def rowMajorIndex (cols : Nat) (p : Pos) : Nat := p.row * cols + p.col

/-- Row-major index of a move's chain's first cell. -/
def firstCellIndex (cols : Nat) (m : ScoredMove) : Nat :=
  rowMajorIndex cols (m.chain.headD ⟨0, 0⟩)

/-- Modelled from the spec: the deterministic choice between the best move
so far and a challenger — higher score wins, ties broken by longer chain,
then by earlier row-major position of the chain's first cell. -/
def chooseBetter (cols : Nat) (cur cand : ScoredMove) : ScoredMove :=
  if cur.score < cand.score then cand
  else if cand.score < cur.score then cur
  else if cur.chain.length < cand.chain.length then cand
  else if cand.chain.length < cur.chain.length then cur
  else if firstCellIndex cols cand < firstCellIndex cols cur then cand
  else cur

/-- Modelled from the spec: the evaluation-and-selection step — score every
chain of the board and select the maximum under the deterministic
tie-breaks. -/
def selectMove (w : HeuristicWeights) (b : Board) : Option ScoredMove :=
  match (findChains b).map (evaluate w b) with
  | [] => none
  | m :: ms => some (ms.foldl (chooseBetter (boardCols b)) m)

/-- The "at least as good" order realized by the selection: better score, or
equal score and longer chain, or equal score and length and a first cell no
later in row-major order. -/
def moveGE (cols : Nat) (m m' : ScoredMove) : Prop :=
  m'.score < m.score ∨ (m.score = m'.score ∧
    (m'.chain.length < m.chain.length ∨ (m.chain.length = m'.chain.length ∧
      firstCellIndex cols m ≤ firstCellIndex cols m')))

/-! ## Decision Loop stall detection (2248 bot) -/

/-- Phase of the Decision Loop relevant to stall detection. -/
inductive LoopPhase where
  | running
  | stalled
deriving DecidableEq, Repr

/-- Modelled from the spec: the Decision Loop state observed at
`FIND_CHAINS` — the phase, plus the previous cycle's board when that cycle
yielded zero candidate moves. -/
structure LoopState where
  phase : LoopPhase
  lastNoMoveBoard : Option Board
deriving DecidableEq, Repr

/-- The loop's initial state. -/
def initLoopState : LoopState := ⟨.running, none⟩

/-- Modelled from the spec: one decision cycle observed at `FIND_CHAINS` —
zero candidates on two consecutive cycles with an unchanged board enter the
terminal `STALLED` state; `STALLED` persists; a cycle with candidates
clears the stall tracking. -/
def loopStep (s : LoopState) (b : Board) : LoopState :=
  match s.phase with
  | .stalled => s
  | .running =>
      if findChains b = [] then
        if s.lastNoMoveBoard = some b then ⟨.stalled, some b⟩
        else ⟨.running, some b⟩
      else ⟨.running, none⟩

/-- The Decision Loop run over the boards captured on successive cycles. -/
def runLoop (bs : List Board) : LoopState := bs.foldl loopStep initLoopState

/-- How a terminal state is reported upward. -/
inductive RunOutcome where
  | normalTerminal
  | error
deriving DecidableEq, Repr

/-- Modelled from the spec: `STALLED` is reported as a normal terminal
outcome, not an error; a running loop reports no terminal outcome. -/
def reportPhase : LoopPhase → Option RunOutcome
  | .stalled => some .normalTerminal
  | .running => none

/-! ## Theorems -/

theorem mem_allPositions {b : Board} {p : Pos} :
    p ∈ allPositions b ↔ p.row < boardRows b ∧ p.col < boardCols b := by
  simp only [allPositions, List.mem_flatten, List.mem_map, List.mem_range]
  constructor
  · rintro ⟨l, ⟨r, hr, rfl⟩, hp⟩
    simp only [List.mem_map, List.mem_range] at hp
    obtain ⟨c, hc, rfl⟩ := hp
    exact ⟨hr, hc⟩
  · rintro ⟨h1, h2⟩
    refine ⟨_, ⟨p.row, h1, rfl⟩, ?_⟩
    simp only [List.mem_map, List.mem_range]
    exact ⟨p.col, h2, rfl⟩

theorem allPositions_nodup (b : Board) : (allPositions b).Nodup := by
  unfold allPositions
  rw [List.nodup_flatten]
  constructor
  · intro l hl
    simp only [List.mem_map, List.mem_range] at hl
    obtain ⟨r, _, rfl⟩ := hl
    refine List.Nodup.map ?_ (List.nodup_range _)
    intro c c' h
    cases h
    rfl
  · rw [List.pairwise_map]
    refine List.Pairwise.imp ?_ (List.pairwise_lt_range _)
    intro r r' hlt x hx hx'
    simp only [List.mem_map, List.mem_range] at hx hx'
    obtain ⟨c, _, rfl⟩ := hx
    obtain ⟨c', _, h⟩ := hx'
    cases h
    omega

theorem adjacent8_symm (p q : Pos) : adjacent8 p q = adjacent8 q p := by
  unfold adjacent8
  rw [Nat.max_comm p.row q.row, Nat.min_comm p.row q.row,
    Nat.max_comm p.col q.col, Nat.min_comm p.col q.col]
  congr 2
  rw [Bool.eq_iff_iff]
  simp [ne_comm]

theorem mem_expandStep {b : Board} {v : Nat} {all cur : List Pos} {q : Pos} :
    q ∈ expandStep b v all cur ↔
      q ∈ all ∧ (q ∈ cur ∨
        (cellAt b q = some v ∧ ∃ p ∈ cur, adjacent8 p q = true)) := by
  simp [expandStep, List.mem_filter, List.any_eq_true]

theorem expandStep_subset_all {b : Board} {v : Nat} {all cur : List Pos} :
    expandStep b v all cur ⊆ all := by
  intro q hq
  exact (mem_expandStep.mp hq).1

theorem subset_expandStep {b : Board} {v : Nat} {all cur : List Pos}
    (h : cur ⊆ all) : cur ⊆ expandStep b v all cur := by
  intro q hq
  exact mem_expandStep.mpr ⟨h hq, Or.inl hq⟩

theorem expandStep_nodup {b : Board} {v : Nat} {all cur : List Pos}
    (h : all.Nodup) : (expandStep b v all cur).Nodup :=
  h.filter _

theorem expandStep_values {b : Board} {v : Nat} {all cur : List Pos}
    (h : ∀ q ∈ cur, cellAt b q = some v) :
    ∀ q ∈ expandStep b v all cur, cellAt b q = some v := by
  intro q hq
  rcases mem_expandStep.mp hq with ⟨_, hq' | ⟨hv, _⟩⟩
  · exact h q hq'
  · exact hv

theorem expandStep_congr {b : Board} {v : Nat} {all cur cur' : List Pos}
    (h : ∀ x, x ∈ cur ↔ x ∈ cur') :
    expandStep b v all cur = expandStep b v all cur' := by
  unfold expandStep
  refine List.filter_congr ?_
  intro q _
  congr 1
  · rw [Bool.eq_iff_iff]
    simpa using h q
  · congr 1
    rw [Bool.eq_iff_iff]
    simp only [List.any_eq_true]
    constructor
    · rintro ⟨p, hp, hadj⟩
      exact ⟨p, (h p).mp hp, hadj⟩
    · rintro ⟨p, hp, hadj⟩
      exact ⟨p, (h p).mpr hp, hadj⟩

theorem expandIter_subset_all {b : Board} {v : Nat} {all : List Pos} :
    ∀ {n : Nat} {cur : List Pos}, cur ⊆ all →
      expandIter b v all n cur ⊆ all := by
  intro n
  induction n with
  | zero => intro cur h; exact h
  | succ n ih => intro cur _; exact ih expandStep_subset_all

theorem subset_expandIter {b : Board} {v : Nat} {all : List Pos} :
    ∀ {n : Nat} {cur : List Pos}, cur ⊆ all →
      cur ⊆ expandIter b v all n cur := by
  intro n
  induction n with
  | zero => intro cur _; exact fun _ h => h
  | succ n ih =>
      intro cur h
      exact fun q hq => ih expandStep_subset_all (subset_expandStep h hq)

theorem expandIter_values {b : Board} {v : Nat} {all : List Pos} :
    ∀ {n : Nat} {cur : List Pos}, (∀ q ∈ cur, cellAt b q = some v) →
      ∀ q ∈ expandIter b v all n cur, cellAt b q = some v := by
  intro n
  induction n with
  | zero => intro cur h; exact h
  | succ n ih => intro cur h; exact ih (expandStep_values h)

theorem expandIter_nodup {b : Board} {v : Nat} {all : List Pos}
    (hall : all.Nodup) :
    ∀ {n : Nat} {cur : List Pos}, cur.Nodup →
      (expandIter b v all n cur).Nodup := by
  intro n
  induction n with
  | zero => intro cur h; exact h
  | succ n ih => intro cur _; exact ih (expandStep_nodup hall)

theorem ReachIn.mono {s t : List Pos} {p q : Pos} (hsub : s ⊆ t)
    (h : ReachIn s p q) : ReachIn t p q := by
  induction h with
  | refl => exact .refl _
  | step _ hr hadj ih => exact .step ih (hsub hr) hadj

theorem ReachIn.trans {s : List Pos} {p q r : Pos} (h1 : ReachIn s p q)
    (h2 : ReachIn s q r) : ReachIn s p r := by
  induction h2 with
  | refl => exact h1
  | step _ hr hadj ih => exact .step ih hr hadj

theorem ReachIn.mem_right {s : List Pos} {p q : Pos} (h : ReachIn s p q) :
    q = p ∨ q ∈ s := by
  induction h with
  | refl => exact Or.inl rfl
  | step _ hr _ _ => exact Or.inr hr

theorem ReachIn.symm {s : List Pos} {p q : Pos} (hp : p ∈ s)
    (h : ReachIn s p q) : ReachIn s q p := by
  induction h with
  | refl => exact .refl _
  | step hpq hr hadj ih =>
      rename_i q' r'
      have hq' : q' ∈ s := by
        rcases hpq.mem_right with h' | h'
        · exact h' ▸ hp
        · exact h'
      have : ReachIn s r' q' := .step (.refl _) hq' (adjacent8_symm q' r' ▸ hadj)
      exact this.trans ih

theorem expandIter_reach {b : Board} {v : Nat} {all : List Pos} {p : Pos} :
    ∀ {n : Nat} {cur : List Pos}, cur ⊆ all →
      (∀ q ∈ cur, ReachIn cur p q) →
      ∀ q ∈ expandIter b v all n cur,
        ReachIn (expandIter b v all n cur) p q := by
  intro n
  induction n with
  | zero => intro cur _ h; exact h
  | succ n ih =>
      intro cur hsub hreach
      refine ih expandStep_subset_all ?_
      intro q hq
      rcases mem_expandStep.mp hq with ⟨_, hq' | ⟨_, x, hx, hadj⟩⟩
      · exact (hreach q hq').mono (subset_expandStep hsub)
      · exact .step ((hreach x hx).mono (subset_expandStep hsub)) hq hadj

theorem expandIter_fixed {b : Board} {v : Nat} {all : List Pos}
    {cur : List Pos} (h : expandStep b v all cur = cur) :
    ∀ n, expandIter b v all n cur = cur := by
  intro n
  induction n with
  | zero => rfl
  | succ n ih => show expandIter b v all n (expandStep b v all cur) = cur
                 rw [h]; exact ih

theorem expandIter_fix_or_grow {b : Board} {v : Nat} {all : List Pos}
    (hall : all.Nodup) :
    ∀ (n : Nat) (cur : List Pos), cur ⊆ all → cur.Nodup →
      (∀ x, x ∈ expandStep b v all (expandIter b v all n cur) ↔
        x ∈ expandIter b v all n cur) ∨
      cur.length + n ≤ (expandIter b v all n cur).length := by
  intro n
  induction n with
  | zero =>
      intro cur _ _
      right
      show cur.length + 0 ≤ cur.length
      omega
  | succ n ih =>
      intro cur hsub hnd
      by_cases hset : ∀ x, x ∈ expandStep b v all cur ↔ x ∈ cur
      · left
        have hfix : expandStep b v all (expandStep b v all cur) =
            expandStep b v all cur := expandStep_congr hset
        have hiter : expandIter b v all n (expandStep b v all cur) =
            expandStep b v all cur := expandIter_fixed hfix n
        show ∀ x, x ∈ expandStep b v all
            (expandIter b v all n (expandStep b v all cur)) ↔
            x ∈ expandIter b v all n (expandStep b v all cur)
        rw [hiter, hfix]
        intro x
        exact Iff.rfl
      · push_neg at hset
        obtain ⟨x, hx⟩ := hset
        have hcs : cur ⊆ expandStep b v all cur := subset_expandStep hsub
        have hxin : x ∈ expandStep b v all cur ∧ x ∉ cur := by
          rcases hx with h | h
          · exact h
          · exact absurd (hcs h.2) h.1
        have hgrow : cur.length + 1 ≤ (expandStep b v all cur).length := by
          have hnd' : (x :: cur).Nodup := List.nodup_cons.mpr ⟨hxin.2, hnd⟩
          have hsub' : (x :: cur) ⊆ expandStep b v all cur := by
            intro y hy
            rcases List.mem_cons.mp hy with rfl | hy'
            · exact hxin.1
            · exact hcs hy'
          have := (List.subperm_of_subset hnd' hsub').length_le
          simpa using this
        rcases ih (expandStep b v all cur) expandStep_subset_all
            (expandStep_nodup hall) with h | h
        · left; exact h
        · right
          show cur.length + (n + 1) ≤
            (expandIter b v all n (expandStep b v all cur)).length
          omega

theorem singleton_subset_all {b : Board} {p : Pos}
    (hp : p ∈ allPositions b) : [p] ⊆ allPositions b := by
  intro q hq
  rw [List.mem_singleton.mp hq]
  exact hp

theorem component_subset {b : Board} {p : Pos} {v : Nat}
    (hp : p ∈ allPositions b) : component b p v ⊆ allPositions b := by
  unfold component
  exact expandIter_subset_all (singleton_subset_all hp)

theorem self_mem_component {b : Board} {p : Pos} {v : Nat}
    (hp : p ∈ allPositions b) : p ∈ component b p v := by
  unfold component
  exact subset_expandIter (singleton_subset_all hp) (List.mem_singleton.mpr rfl)

theorem component_values {b : Board} {p : Pos} {v : Nat}
    (hv : cellAt b p = some v) :
    ∀ q ∈ component b p v, cellAt b q = some v := by
  unfold component
  refine expandIter_values ?_
  intro q hq
  rw [List.mem_singleton.mp hq]
  exact hv

theorem component_nodup (b : Board) (p : Pos) (v : Nat) :
    (component b p v).Nodup := by
  unfold component
  exact expandIter_nodup (allPositions_nodup b) (List.nodup_singleton p)

theorem component_reach {b : Board} {p : Pos} {v : Nat}
    (hp : p ∈ allPositions b) :
    ∀ q ∈ component b p v, ReachIn (component b p v) p q := by
  unfold component
  refine expandIter_reach (singleton_subset_all hp) ?_
  intro q hq
  rw [List.mem_singleton.mp hq]
  exact .refl _

theorem component_closed {b : Board} {p : Pos} {v : Nat}
    (hp : p ∈ allPositions b) :
    ∀ q, q ∈ expandStep b v (allPositions b) (component b p v) →
      q ∈ component b p v := by
  rcases expandIter_fix_or_grow (b := b) (v := v)
      (allPositions_nodup b) (allPositions b).length [p]
      (singleton_subset_all hp) (List.nodup_singleton p) with h | h
  · intro q hq
    exact (h q).mp hq
  · exfalso
    have h1 : (component b p v).length ≤ (allPositions b).length :=
      (List.subperm_of_subset (component_nodup b p v)
        (component_subset hp)).length_le
    have h2 : (1 : Nat) + (allPositions b).length ≤
        (component b p v).length := by
      simpa [component] using h
    omega

theorem cellAt_some_mem {b : Board} {p : Pos} {v : Nat}
    (hrect : isRect b = true) (h : cellAt b p = some v) :
    p ∈ allPositions b := by
  cases hrow : b[p.row]? with
  | none => simp [cellAt, hrow] at h
  | some row =>
      cases hcol : row[p.col]? with
      | none => simp [cellAt, hrow, hcol] at h
      | some cell =>
          have hr : p.row < b.length := (List.getElem?_eq_some.mp hrow).1
          have hc : p.col < row.length := (List.getElem?_eq_some.mp hcol).1
          have hmem : row ∈ b := List.getElem?_mem hrow
          have hlen : row.length = boardCols b := by
            have := (List.all_eq_true.mp hrect) row hmem
            simpa using this
          exact mem_allPositions.mpr ⟨hr, hlen ▸ hc⟩

theorem component_max {b : Board} {p : Pos} {v : Nat}
    (hrect : isRect b = true) (hp : p ∈ allPositions b) :
    ∀ q, cellAt b q = some v →
      (∃ x ∈ component b p v, adjacent8 x q = true) →
      q ∈ component b p v := by
  rintro q hq ⟨x, hx, hadj⟩
  apply component_closed hp
  exact mem_expandStep.mpr
    ⟨cellAt_some_mem hrect hq, Or.inr ⟨hq, x, hx, hadj⟩⟩

theorem component_chainSpec {b : Board} {p : Pos} {v : Nat}
    (hrect : isRect b = true) (hp : p ∈ allPositions b)
    (hv : cellAt b p = some v)
    (hlen : 2 ≤ (component b p v).length) :
    ChainSpec b (component b p v) := by
  refine ⟨component_nodup b p v, hlen, v, component_values hv, ?_,
    component_max hrect hp⟩
  intro q hq r hr
  have h1 := component_reach hp q hq
  have h2 := component_reach hp r hr
  exact (h1.symm (self_mem_component hp)).trans h2

theorem chainsLoop_cons_visited {b : Board} {p : Pos}
    {todo visited : List Pos} {acc : List (List Pos)} (h : p ∈ visited) :
    chainsLoop b (p :: todo) visited acc = chainsLoop b todo visited acc := by
  simp [chainsLoop, h]

theorem chainsLoop_cons_empty {b : Board} {p : Pos}
    {todo visited : List Pos} {acc : List (List Pos)} (h : p ∉ visited)
    (hc : cellAt b p = none) :
    chainsLoop b (p :: todo) visited acc = chainsLoop b todo visited acc := by
  simp [chainsLoop, h, hc]

theorem chainsLoop_cons_small {b : Board} {p : Pos} {v : Nat}
    {todo visited : List Pos} {acc : List (List Pos)} (h : p ∉ visited)
    (hc : cellAt b p = some v) (hlen : ¬ 2 ≤ (component b p v).length) :
    chainsLoop b (p :: todo) visited acc =
      chainsLoop b todo (visited ++ component b p v) acc := by
  simp [chainsLoop, h, hc, hlen]

theorem chainsLoop_cons_add {b : Board} {p : Pos} {v : Nat}
    {todo visited : List Pos} {acc : List (List Pos)} (h : p ∉ visited)
    (hc : cellAt b p = some v) (hlen : 2 ≤ (component b p v).length) :
    chainsLoop b (p :: todo) visited acc =
      chainsLoop b todo (visited ++ component b p v)
        (component b p v :: acc) := by
  simp [chainsLoop, h, hc, hlen]

theorem chainsLoop_spec (b : Board) (hrect : isRect b = true) :
    ∀ (todo visited : List Pos) (acc : List (List Pos)),
      todo ⊆ allPositions b →
      (∀ ch ∈ acc, ChainSpec b ch) →
      (∀ ch ∈ acc, ∀ x ∈ ch, x ∈ visited) →
      acc.Pairwise (fun c₁ c₂ => ∃ x, x ∈ c₁ ∧ x ∉ c₂) →
      (∀ ch ∈ chainsLoop b todo visited acc, ChainSpec b ch) ∧
      (chainsLoop b todo visited acc).Pairwise
        (fun c₁ c₂ => ∃ x, x ∈ c₂ ∧ x ∉ c₁) := by
  intro todo
  induction todo with
  | nil =>
      intro visited acc _ hacc _ hpair
      constructor
      · intro ch hch
        rw [show chainsLoop b [] visited acc = acc.reverse from rfl,
          List.mem_reverse] at hch
        exact hacc ch hch
      · rw [show chainsLoop b [] visited acc = acc.reverse from rfl,
          List.pairwise_reverse]
        exact hpair
  | cons p todo ih =>
      intro visited acc htodo hacc hvis hpair
      have hptodo : p ∈ allPositions b := htodo (List.mem_cons_self p todo)
      have htodo' : todo ⊆ allPositions b :=
        fun x hx => htodo (List.mem_cons_of_mem p hx)
      by_cases hv : p ∈ visited
      · rw [chainsLoop_cons_visited hv]
        exact ih visited acc htodo' hacc hvis hpair
      · cases hc : cellAt b p with
        | none =>
            rw [chainsLoop_cons_empty hv hc]
            exact ih visited acc htodo' hacc hvis hpair
        | some v =>
            by_cases hlen : 2 ≤ (component b p v).length
            · rw [chainsLoop_cons_add hv hc hlen]
              refine ih (visited ++ component b p v) (component b p v :: acc)
                htodo' ?_ ?_ ?_
              · intro ch hch
                rcases List.mem_cons.mp hch with rfl | hch'
                · exact component_chainSpec hrect hptodo hc hlen
                · exact hacc ch hch'
              · intro ch hch x hx
                rcases List.mem_cons.mp hch with rfl | hch'
                · exact List.mem_append_right _ hx
                · exact List.mem_append_left _ (hvis ch hch' x hx)
              · refine List.pairwise_cons.mpr ⟨?_, hpair⟩
                intro ch hch
                exact ⟨p, self_mem_component hptodo,
                  fun hp' => hv (hvis ch hch p hp')⟩
            · rw [chainsLoop_cons_small hv hc hlen]
              refine ih (visited ++ component b p v) acc htodo' hacc ?_ hpair
              intro ch hch x hx
              exact List.mem_append_left _ (hvis ch hch x hx)

/-- C2: every `GridDimensions` value accepted by the Grid Size Detector (and
every value retained in the last-known-good cache, assuming it held only
accepted values) satisfies `2 ≤ rows ≤ 10` and `2 ≤ columns ≤ 10`; an
out-of-range detector result is rejected (mapped to a failure), and an
accepted result is returned unchanged — never clamped. -/
theorem C2_grid_dims_bounds {α : Type}
    (contour enhancedEdge pattern spacing : α → Option GridDimensions)
    (img : α) (cache : Option GridDimensions)
    (hcache : ∀ d, cache = some d →
      2 ≤ d.rows ∧ d.rows ≤ 10 ∧ 2 ≤ d.columns ∧ d.columns ≤ 10) :
    (∀ raw d, acceptGridDims raw = some d →
      (2 ≤ d.rows ∧ d.rows ≤ 10 ∧ 2 ≤ d.columns ∧ d.columns ≤ 10) ∧ d = raw) ∧
    (∀ raw, gridDimsValid raw = false → acceptGridDims raw = none) ∧
    (∀ d, detectGridSize contour enhancedEdge pattern spacing img = some d →
      2 ≤ d.rows ∧ d.rows ≤ 10 ∧ 2 ≤ d.columns ∧ d.columns ≤ 10) ∧
    (∀ d, updateCache cache
        (detectGridSize contour enhancedEdge pattern spacing img) = some d →
      2 ≤ d.rows ∧ d.rows ≤ 10 ∧ 2 ≤ d.columns ∧ d.columns ≤ 10) := by
  have haccept : ∀ raw d, acceptGridDims raw = some d →
      (2 ≤ d.rows ∧ d.rows ≤ 10 ∧ 2 ≤ d.columns ∧ d.columns ≤ 10) ∧ d = raw := by
    intro raw d h
    unfold acceptGridDims at h
    by_cases hv : gridDimsValid raw = true
    · rw [if_pos hv] at h
      cases h
      unfold gridDimsValid at hv
      simp only [Bool.and_eq_true, decide_eq_true_eq] at hv
      exact ⟨⟨hv.1.1.1, hv.1.1.2, hv.1.2, hv.2⟩, rfl⟩
    · rw [if_neg hv] at h
      cases h
  have hcascade : ∀ (ts : List (α → Option GridDimensions)) d,
      runCascade ts img = some d →
      2 ≤ d.rows ∧ d.rows ≤ 10 ∧ 2 ≤ d.columns ∧ d.columns ≤ 10 := by
    intro ts
    induction ts with
    | nil => intro d h; cases h
    | cons t ts ih =>
        intro d h
        unfold runCascade at h
        cases htr : tierResult t img with
        | some d0 =>
            rw [htr] at h
            cases h
            unfold tierResult at htr
            cases ht : t img with
            | some raw =>
                rw [ht] at htr
                exact (haccept raw _ htr).1
            | none => rw [ht] at htr; cases htr
        | none => rw [htr] at h; exact ih d h
  refine ⟨haccept, ?_, ?_, ?_⟩
  · intro raw h
    unfold acceptGridDims
    rw [if_neg (by simp [h])]
  · intro d h
    exact hcascade [contour, enhancedEdge, pattern, spacing] d h
  · intro d h
    unfold updateCache at h
    cases hd : detectGridSize contour enhancedEdge pattern spacing img with
    | some d0 =>
        rw [hd] at h
        cases h
        exact hcascade [contour, enhancedEdge, pattern, spacing] _ hd
    | none =>
        rw [hd] at h
        exact hcache d h

/-- Witness for C2 at a concrete instantiation: the cascade over constant
tiers on a unit image, with an empty cache. -/
theorem C2_grid_dims_bounds_witness :
    (∀ raw d, acceptGridDims raw = some d →
      (2 ≤ d.rows ∧ d.rows ≤ 10 ∧ 2 ≤ d.columns ∧ d.columns ≤ 10) ∧ d = raw) ∧
    (∀ raw, gridDimsValid raw = false → acceptGridDims raw = none) ∧
    (∀ d, detectGridSize (fun _ : Unit => some ⟨5, 5⟩)
        (fun _ => none) (fun _ => none) (fun _ => none) () = some d →
      2 ≤ d.rows ∧ d.rows ≤ 10 ∧ 2 ≤ d.columns ∧ d.columns ≤ 10) ∧
    (∀ d, updateCache none
        (detectGridSize (fun _ : Unit => some ⟨5, 5⟩)
          (fun _ => none) (fun _ => none) (fun _ => none) ()) = some d →
      2 ≤ d.rows ∧ d.rows ≤ 10 ∧ 2 ≤ d.columns ∧ d.columns ≤ 10) :=
  C2_grid_dims_bounds (fun _ : Unit => some ⟨5, 5⟩) (fun _ => none)
    (fun _ => none) (fun _ => none) () none (by intro d h; cases h)

/-- C6: the Grid Size Detector tries its four tiers in the fixed order
contour, enhanced-edge, pattern, spacing, returning the first tier's result
that passes the `[2,10]×[2,10]` bound; the returned value does not depend on
the tiers after the first accepted one (they are never attempted); it fails
if and only if all four tiers fail to produce an accepted result; and on
failure the controller reuses the last known-good `GridDimensions` when one
exists. -/
theorem C6_detection_cascade {α : Type}
    (contour enhancedEdge pattern spacing : α → Option GridDimensions)
    (img : α) :
    (∀ d, tierResult contour img = some d →
      ∀ t2 t3 t4, detectGridSize contour t2 t3 t4 img = some d) ∧
    (tierResult contour img = none →
      ∀ d, tierResult enhancedEdge img = some d →
      ∀ t3 t4, detectGridSize contour enhancedEdge t3 t4 img = some d) ∧
    (tierResult contour img = none → tierResult enhancedEdge img = none →
      ∀ d, tierResult pattern img = some d →
      ∀ t4, detectGridSize contour enhancedEdge pattern t4 img = some d) ∧
    (tierResult contour img = none → tierResult enhancedEdge img = none →
      tierResult pattern img = none →
      detectGridSize contour enhancedEdge pattern spacing img =
        tierResult spacing img) ∧
    (detectGridSize contour enhancedEdge pattern spacing img = none ↔
      (tierResult contour img = none ∧ tierResult enhancedEdge img = none ∧
       tierResult pattern img = none ∧ tierResult spacing img = none)) ∧
    (∀ g, detectGridSize contour enhancedEdge pattern spacing img = none →
      controllerGridDims contour enhancedEdge pattern spacing (some g) img =
        some g) ∧
    (∀ d, detectGridSize contour enhancedEdge pattern spacing img = some d →
      ∀ cache, controllerGridDims contour enhancedEdge pattern spacing
        cache img = some d) := by
  refine ⟨?_, ?_, ?_, ?_, ?_, ?_, ?_⟩
  · intro d h t2 t3 t4
    simp [detectGridSize, runCascade, h]
  · intro h1 d h2 t3 t4
    simp [detectGridSize, runCascade, h1, h2]
  · intro h1 h2 d h3 t4
    simp [detectGridSize, runCascade, h1, h2, h3]
  · intro h1 h2 h3
    simp only [detectGridSize, runCascade, h1, h2, h3]
    cases tierResult spacing img <;> rfl
  · cases h1 : tierResult contour img with
    | some d => simp [detectGridSize, runCascade, h1]
    | none =>
        cases h2 : tierResult enhancedEdge img with
        | some d => simp [detectGridSize, runCascade, h1, h2]
        | none =>
            cases h3 : tierResult pattern img with
            | some d => simp [detectGridSize, runCascade, h1, h2, h3]
            | none =>
                cases h4 : tierResult spacing img with
                | some d => simp [detectGridSize, runCascade, h1, h2, h3, h4]
                | none => simp [detectGridSize, runCascade, h1, h2, h3, h4]
  · intro g h
    unfold controllerGridDims
    rw [h]
  · intro d h cache
    unfold controllerGridDims
    rw [h]

/-- Witness for C6 at a concrete instantiation: a cascade over constant
tiers on a unit image whose contour tier yields an out-of-range result and
whose pattern tier yields (4,4). -/
theorem C6_detection_cascade_witness :
    ((fun t1 t2 t3 t4 => detectGridSize t1 t2 t3 t4 ())
        (fun _ : Unit => some ⟨1, 4⟩) (fun _ => none)
        (fun _ => some ⟨4, 4⟩) (fun _ => some ⟨7, 7⟩) = some ⟨4, 4⟩) ∧
    (controllerGridDims (fun _ : Unit => some ⟨1, 4⟩) (fun _ => none)
        (fun _ => some ⟨20, 4⟩) (fun _ => none) (some ⟨6, 6⟩) () =
      some ⟨6, 6⟩) := by
  constructor
  · exact (C6_detection_cascade (fun _ : Unit => some ⟨1, 4⟩) (fun _ => none)
      (fun _ => some ⟨4, 4⟩) (fun _ => some ⟨7, 7⟩) ()).2.2.1
      (by decide) (by decide) ⟨4, 4⟩ (by decide) (fun _ => some ⟨7, 7⟩)
  · exact (C6_detection_cascade (fun _ : Unit => some ⟨1, 4⟩) (fun _ => none)
      (fun _ => some ⟨20, 4⟩) (fun _ => none) ()).2.2.2.2.2.1
      ⟨6, 6⟩ (by decide)

/-- C8: `DestinationForm.handleSubmit` with an empty `selectedIds` list sets
the error message "Пожалуйста, выберите хотя бы одно сообщение", issues no
request to `/api/send`, and never invokes `onSendComplete` — for any
destination, mode and fetch environment. -/
theorem C8_destination_form_empty_selection (selectedIds : List Int)
    (destination mode : String) (fetchResult : FetchOutcome)
    (h : selectedIds = []) :
    (destinationFormSubmit selectedIds destination mode fetchResult).errorMsg =
      some "Пожалуйста, выберите хотя бы одно сообщение" ∧
    (destinationFormSubmit selectedIds destination mode
      fetchResult).sentRequests = [] ∧
    (destinationFormSubmit selectedIds destination mode
      fetchResult).sendCompleteCalls = [] := by
  subst h
  refine ⟨rfl, rfl, rfl⟩

/-- Witness for C8: the empty selection with a concrete destination, mode and
successful fetch environment. -/
theorem C8_destination_form_empty_selection_witness :
    (destinationFormSubmit [] "user1" "forward"
        (.ok ⟨true, 1, 0, 1, []⟩)).errorMsg =
      some "Пожалуйста, выберите хотя бы одно сообщение" ∧
    (destinationFormSubmit [] "user1" "forward"
        (.ok ⟨true, 1, 0, 1, []⟩)).sentRequests = [] ∧
    (destinationFormSubmit [] "user1" "forward"
        (.ok ⟨true, 1, 0, 1, []⟩)).sendCompleteCalls = [] :=
  C8_destination_form_empty_selection [] "user1" "forward"
    (.ok ⟨true, 1, 0, 1, []⟩) rfl

/-- C9: `SearchForm.handleSubmit` calls `onSearch` with `from_date` equal to
the entered from-date suffixed with "T00:00:00" when it is non-empty and
`undefined` (none) otherwise, and with `to_date` equal to the entered
to-date suffixed with "T23:59:59" when non-empty and none otherwise. -/
theorem C9_search_form_dates (fromDate toDate : String)
    (limitPerDialog : Option Nat) :
    ((fromDate ≠ "" → (searchFormSubmit fromDate toDate
        limitPerDialog).from_date = some (fromDate ++ "T00:00:00")) ∧
     (fromDate = "" → (searchFormSubmit fromDate toDate
        limitPerDialog).from_date = none)) ∧
    ((toDate ≠ "" → (searchFormSubmit fromDate toDate
        limitPerDialog).to_date = some (toDate ++ "T23:59:59")) ∧
     (toDate = "" → (searchFormSubmit fromDate toDate
        limitPerDialog).to_date = none)) := by
  refine ⟨⟨fun h => ?_, fun h => ?_⟩, ⟨fun h => ?_, fun h => ?_⟩⟩ <;>
    simp [searchFormSubmit, h]

/-- Witness for C9: a non-empty from-date and an empty to-date. -/
theorem C9_search_form_dates_witness :
    (searchFormSubmit "2024-01-01" "" none).from_date =
      some "2024-01-01T00:00:00" ∧
    (searchFormSubmit "2024-01-01" "" none).to_date = none :=
  ⟨(C9_search_form_dates "2024-01-01" "" none).1.1 (by decide),
   (C9_search_form_dates "2024-01-01" "" none).2.2 rfl⟩

/-- C10: for a duplicate-free selection, `handleCheckboxChange` removes the
id when present and appends it when absent, and toggling the same id twice
yields a selection equal as a set to the original. -/
theorem C10_checkbox_toggle (selectedIds : List Int) (id : Int)
    (_hnd : selectedIds.Nodup) :
    (id ∈ selectedIds → handleCheckboxChange selectedIds id =
      selectedIds.filter (fun msgId => msgId ≠ id)) ∧
    (id ∉ selectedIds → handleCheckboxChange selectedIds id =
      selectedIds ++ [id]) ∧
    (∀ x, x ∈ handleCheckboxChange (handleCheckboxChange selectedIds id) id ↔
      x ∈ selectedIds) := by
  refine ⟨fun h => by simp [handleCheckboxChange, h],
          fun h => by simp [handleCheckboxChange, h], fun x => ?_⟩
  by_cases h : id ∈ selectedIds
  · have h1 : handleCheckboxChange selectedIds id =
        selectedIds.filter (fun msgId => msgId ≠ id) := by
      simp [handleCheckboxChange, h]
    have h2 : id ∉ selectedIds.filter (fun msgId => msgId ≠ id) := by
      simp
    rw [h1]
    rw [show handleCheckboxChange
        (selectedIds.filter (fun msgId => msgId ≠ id)) id =
        selectedIds.filter (fun msgId => msgId ≠ id) ++ [id] from by
      simp [handleCheckboxChange, h2]]
    simp only [List.mem_append, List.mem_filter, List.mem_singleton,
      decide_eq_true_eq]
    constructor
    · rintro (⟨hx, _⟩ | hx)
      · exact hx
      · exact hx ▸ h
    · intro hx
      by_cases hxi : x = id
      · exact Or.inr hxi
      · exact Or.inl ⟨hx, by simp [hxi]⟩
  · have h1 : handleCheckboxChange selectedIds id = selectedIds ++ [id] := by
      simp [handleCheckboxChange, h]
    have h2 : id ∈ selectedIds ++ [id] := by simp
    rw [h1]
    rw [show handleCheckboxChange (selectedIds ++ [id]) id =
        (selectedIds ++ [id]).filter (fun msgId => msgId ≠ id) from by
      simp [handleCheckboxChange, h2]]
    simp only [List.mem_filter, List.mem_append, List.mem_singleton,
      decide_eq_true_eq]
    constructor
    · rintro ⟨hx | hx, hne⟩
      · exact hx
      · exact absurd hx hne
    · intro hx
      refine ⟨Or.inl hx, ?_⟩
      intro hxi
      exact h (hxi ▸ hx)

/-- Witness for C10: the duplicate-free selection `[1, 2, 3]` toggled on
id 2. -/
theorem C10_checkbox_toggle_witness :
    (2 ∈ ([1, 2, 3] : List Int) → handleCheckboxChange [1, 2, 3] 2 =
      ([1, 2, 3] : List Int).filter (fun msgId => msgId ≠ 2)) ∧
    (2 ∉ ([1, 2, 3] : List Int) → handleCheckboxChange [1, 2, 3] 2 =
      [1, 2, 3] ++ [2]) ∧
    (∀ x, x ∈ handleCheckboxChange (handleCheckboxChange [1, 2, 3] 2) 2 ↔
      x ∈ ([1, 2, 3] : List Int)) :=
  C10_checkbox_toggle [1, 2, 3] 2 (by decide)

/-- C1: on a rectangular board, every Chain returned by `findChains` is a
duplicate-free list of at least two cells that all hold one equal tile
value, is connected under 8-neighbour adjacency (`ReachIn`), and is maximal
— every cell of that value adjacent to the chain belongs to it, so the chain
is exactly one maximal connected component; and no two returned Chains have
an identical cell set (this is the content of `ChainSpec`). -/
theorem C1_find_chains (b : Board) (hrect : isRect b = true) :
    (∀ ch ∈ findChains b, ChainSpec b ch) ∧
    (findChains b).Pairwise (fun c₁ c₂ => ¬ ∀ x, x ∈ c₁ ↔ x ∈ c₂) := by
  have h := chainsLoop_spec b hrect (allPositions b) [] []
    (fun _ hx => hx) (by simp) (by simp) (by simp)
  refine ⟨h.1, List.Pairwise.imp ?_ h.2⟩
  rintro c₁ c₂ ⟨x, hx2, hx1⟩ hiff
  exact hx1 ((hiff x).mpr hx2)

/-- Witness for C1: a concrete rectangular 2×2 board with one chain of two
2-tiles. -/
theorem C1_find_chains_witness :
    isRect [[some 2, some 2], [none, some 4]] = true ∧
    ((∀ ch ∈ findChains [[some 2, some 2], [none, some 4]],
        ChainSpec [[some 2, some 2], [none, some 4]] ch) ∧
     (findChains [[some 2, some 2], [none, some 4]]).Pairwise
        (fun c₁ c₂ => ¬ ∀ x, x ∈ c₁ ↔ x ∈ c₂)) :=
  ⟨by decide, C1_find_chains [[some 2, some 2], [none, some 4]] (by decide)⟩

/-- C5: the Chain Finder is deterministic — two calls on the same
`BoardState` return identical results, the same list of Chains with the same
cell ordering within each Chain. In this embedding `findChains` is a pure
function of the board, so the two call results are definitionally equal. -/
theorem C5_find_chains_deterministic (b : Board) :
    findChains b = findChains b := rfl

theorem boardRows_mergeStep (b : Board) (ch : List Pos) (v : Nat) :
    boardRows (mergeStep b ch v) = boardRows b := by
  simp [boardRows, mergeStep]

theorem boardCols_mergeStep (b : Board) (ch : List Pos) (v : Nat) :
    boardCols (mergeStep b ch v) = boardCols b := by
  cases b with
  | nil => rfl
  | cons r rest =>
      show boardCols ((List.range (boardRows (r :: rest))).map _) =
        boardCols (r :: rest)
      have hrows : boardRows (r :: rest) = rest.length + 1 := rfl
      rw [hrows, List.range_succ_eq_map]
      simp [boardCols]

theorem isRect_mergeStep (b : Board) (ch : List Pos) (v : Nat) :
    isRect (mergeStep b ch v) = true := by
  rw [isRect, List.all_eq_true]
  intro row hrow
  rw [boardCols_mergeStep]
  simp only [mergeStep, List.mem_map, List.mem_range] at hrow
  obtain ⟨r, _, rfl⟩ := hrow
  simp

theorem cellAt_mergeStep {b : Board} {ch : List Pos} {v : Nat} {p : Pos}
    (hr : p.row < boardRows b) (hc : p.col < boardCols b) :
    cellAt (mergeStep b ch v) p = mergeCell b ch v p := by
  simp [cellAt, mergeStep, List.getElem?_map, List.getElem?_range, hr, hc]

theorem row_eq_map {B : Board} (hrect : isRect B = true) {r : Nat}
    (hr : r < B.length) :
    B[r] = (List.range (boardCols B)).map (fun c => cellAt B ⟨r, c⟩) := by
  have hlen : B[r].length = boardCols B := by
    have hmem : B[r] ∈ B := List.getElem_mem hr
    have := (List.all_eq_true.mp hrect) _ hmem
    simpa using this
  apply List.ext_getElem
  · simpa using hlen
  · intro c h1 h2
    have hcb : c < boardCols B := hlen ▸ h1
    rw [List.getElem_map, List.getElem_range]
    simp [cellAt, List.getElem?_eq_getElem, hr, h1]

theorem countVal_eq_sum {B : Board} (hrect : isRect B = true) (w : Nat) :
    countVal B w =
      (B.map (fun row =>
        row.countP (fun c => decide (c = some w)))).sum := by
  unfold countVal allPositions
  rw [List.countP_flatten, List.map_map]
  congr 1
  apply List.ext_getElem
  · simp [boardRows]
  · intro r h1 h2
    have hrB : r < B.length := by simpa [boardRows] using h2
    simp only [List.getElem_map, List.getElem_range, Function.comp]
    rw [List.countP_map, row_eq_map hrect hrB, List.countP_map]
    rfl

theorem compactRow_length (row : List (Option Nat)) :
    (compactRow row).length = row.length := by
  unfold compactRow
  rw [List.length_append, List.length_replicate]
  have h := List.length_filter_le Option.isSome row
  omega

theorem boardRows_applyGravity (b : Board) :
    boardRows (applyGravity b) = boardRows b := by
  simp [boardRows, applyGravity]

theorem boardCols_applyGravity (b : Board) :
    boardCols (applyGravity b) = boardCols b := by
  cases b with
  | nil => rfl
  | cons r rest => exact compactRow_length r

theorem isRect_applyGravity {b : Board} (hrect : isRect b = true) :
    isRect (applyGravity b) = true := by
  rw [isRect, List.all_eq_true]
  intro row hrow
  rw [boardCols_applyGravity]
  simp only [applyGravity, List.mem_map] at hrow
  obtain ⟨row0, hmem, rfl⟩ := hrow
  rw [compactRow_length]
  exact (List.all_eq_true.mp hrect) row0 hmem

theorem countP_compactRow (row : List (Option Nat)) (w : Nat) :
    (compactRow row).countP (fun c => decide (c = some w)) =
      row.countP (fun c => decide (c = some w)) := by
  unfold compactRow
  rw [List.countP_append]
  have h1 : (List.replicate (row.length - (row.filter Option.isSome).length)
      (none : Option Nat)).countP (fun c => decide (c = some w)) = 0 := by
    apply List.countP_eq_zero.mpr
    intro x hx
    rw [List.eq_of_mem_replicate hx]
    simp
  rw [h1, List.countP_filter]
  rw [Nat.zero_add]
  apply List.countP_congr
  intro x _
  cases x with
  | none => simp
  | some y => by_cases hy : y = w <;> simp [hy]

theorem countVal_applyGravity {B : Board} (hrect : isRect B = true)
    (w : Nat) : countVal (applyGravity B) w = countVal B w := by
  rw [countVal_eq_sum (isRect_applyGravity hrect) w, countVal_eq_sum hrect w]
  unfold applyGravity
  rw [List.map_map]
  congr 1
  apply List.map_congr_left
  intro row _
  exact countP_compactRow row w

theorem filter_mem_perm {l s : List Pos} (hl : l.Nodup) (hs : s.Nodup)
    (hsub : s ⊆ l) :
    (l.filter (fun x => decide (x ∈ s))).Perm s := by
  apply (List.perm_ext_iff_of_nodup (hl.filter _) hs).mpr
  intro x
  rw [List.mem_filter]
  simp only [decide_eq_true_eq]
  constructor
  · exact fun h => h.2
  · exact fun h => ⟨hsub h, h⟩

theorem countP_eq_off_set {l s : List Pos} (hl : l.Nodup) (hs : s.Nodup)
    (hsub : s ⊆ l) (P Q : Pos → Bool)
    (hoff : ∀ x ∈ l, x ∉ s → P x = Q x) :
    l.countP P + s.countP Q = l.countP Q + s.countP P := by
  rw [List.countP_eq_countP_filter_add l P (fun x => decide (x ∈ s)),
    List.countP_eq_countP_filter_add l Q (fun x => decide (x ∈ s))]
  have hP := (filter_mem_perm hl hs hsub).countP_eq P
  have hQ := (filter_mem_perm hl hs hsub).countP_eq Q
  have hoff' : (l.filter (fun x => !decide (x ∈ s))).countP P =
      (l.filter (fun x => !decide (x ∈ s))).countP Q := by
    apply List.countP_congr
    intro x hx
    rw [List.mem_filter] at hx
    have hxs : x ∉ s := by simpa using hx.2
    rw [hoff x hx.1 hxs]
  omega

theorem lastCell_mem {ch : List Pos} (hne : ch ≠ []) : lastCell ch ∈ ch := by
  unfold lastCell
  rw [List.getLastD_eq_getLast?, List.getLast?_eq_getLast ch hne]
  simp [List.getLast_mem]

theorem countVal_mergeStep_eq (b : Board) (ch : List Pos) (v w : Nat) :
    countVal (mergeStep b ch v) w =
      (allPositions b).countP
        (fun p => decide (mergeCell b ch v p = some w)) := by
  unfold countVal
  have hpos : allPositions (mergeStep b ch v) = allPositions b := by
    unfold allPositions
    rw [boardRows_mergeStep, boardCols_mergeStep]
  rw [hpos]
  apply List.countP_congr
  intro p hp
  obtain ⟨h1, h2⟩ := mem_allPositions.mp hp
  rw [cellAt_mergeStep h1 h2]

theorem countVal_mergeStep_orig {b : Board} {ch : List Pos} {v : Nat}
    (hrect : isRect b = true) (hnd : ch.Nodup) (hne : ch ≠ [])
    (hv : ∀ p ∈ ch, cellAt b p = some v) (hv1 : 1 ≤ v) :
    countVal (mergeStep b ch v) v + ch.length = countVal b v := by
  have hsub : ch ⊆ allPositions b :=
    fun p hp => cellAt_some_mem hrect (hv p hp)
  have key := countP_eq_off_set (allPositions_nodup b) hnd hsub
    (fun p => decide (mergeCell b ch v p = some v))
    (fun p => decide (cellAt b p = some v))
    (by
      intro p _ hps
      have hpl : p ≠ lastCell ch := fun heq => hps (heq ▸ lastCell_mem hne)
      simp [mergeCell, hpl, hps])
  have hQch : ch.countP (fun p => decide (cellAt b p = some v)) =
      ch.length :=
    List.countP_eq_length.mpr (fun p hp => by simp [hv p hp])
  have hPch : ch.countP
      (fun p => decide (mergeCell b ch v p = some v)) = 0 := by
    apply List.countP_eq_zero.mpr
    intro p hp
    by_cases hpl : p = lastCell ch
    · simp only [mergeCell, if_pos hpl, decide_eq_true_eq]
      intro hcontra
      have : 2 * v = v := by injection hcontra
      omega
    · simp [mergeCell, hpl, hp]
  rw [countVal_mergeStep_eq b ch v v]
  unfold countVal
  omega

theorem countVal_mergeStep_double {b : Board} {ch : List Pos} {v : Nat}
    (hrect : isRect b = true) (hnd : ch.Nodup) (hne : ch ≠ [])
    (hv : ∀ p ∈ ch, cellAt b p = some v) (hv1 : 1 ≤ v) :
    countVal (mergeStep b ch v) (2 * v) = countVal b (2 * v) + 1 := by
  have hsub : ch ⊆ allPositions b :=
    fun p hp => cellAt_some_mem hrect (hv p hp)
  have key := countP_eq_off_set (allPositions_nodup b) hnd hsub
    (fun p => decide (mergeCell b ch v p = some (2 * v)))
    (fun p => decide (cellAt b p = some (2 * v)))
    (by
      intro p _ hps
      have hpl : p ≠ lastCell ch := fun heq => hps (heq ▸ lastCell_mem hne)
      simp [mergeCell, hpl, hps])
  have hQch : ch.countP
      (fun p => decide (cellAt b p = some (2 * v))) = 0 := by
    apply List.countP_eq_zero.mpr
    intro p hp
    rw [hv p hp]
    simp only [decide_eq_true_eq]
    intro hcontra
    have : v = 2 * v := by injection hcontra
    omega
  have hPch : ch.countP
      (fun p => decide (mergeCell b ch v p = some (2 * v))) = 1 := by
    have hcongr : ch.countP
        (fun p => decide (mergeCell b ch v p = some (2 * v))) =
        ch.countP (fun p => p == lastCell ch) := by
      apply List.countP_congr
      intro p hp
      by_cases hpl : p = lastCell ch
      · simp [mergeCell, hpl]
      · simp [mergeCell, hpl, hp]
    rw [hcongr, ← List.count_eq_countP]
    exact List.count_eq_one_of_mem hnd (lastCell_mem hne)
  rw [countVal_mergeStep_eq b ch v (2 * v)]
  unfold countVal
  omega

/-- Counterexample to C3 as stated: on the 1×2 board of two 2-tiles, the
single Chain found is `[(0,0), (0,1)]` (length 2, value 2); simulating it
leaves zero 2-tiles, while the claimed reduction by (chain length − 1) = 1
would leave one. The merged tile has the doubled value 4, not 2, so the
count of the original value drops by the full chain length. -/
theorem C3_counterexample :
    findChains [[some 2, some 2]] = [[⟨0, 0⟩, ⟨0, 1⟩]] ∧
    ¬ (countVal (simulate [[some 2, some 2]] [⟨0, 0⟩, ⟨0, 1⟩] 2) 2 =
        countVal [[some 2, some 2]] 2 -
          (([⟨0, 0⟩, ⟨0, 1⟩] : List Pos).length - 1)) := by
  constructor
  · decide
  · decide

/-- C3 (amended): simulating a Chain (all cells distinct, non-empty, all
holding one positive value `v`) removes all chain cells, places exactly one
new tile of the doubled value `2·v` at the chain's last-visited cell (the
count of `2·v`-tiles grows by exactly one), and reduces the count of tiles
holding the chain's original value by the full chain length — not by
(chain length − 1), since the merged tile's value `2·v` differs from `v`. -/
theorem C3_simulate_amended (b : Board) (ch : List Pos) (v : Nat)
    (hrect : isRect b = true) (hnd : ch.Nodup) (hne : ch ≠ [])
    (hv : ∀ p ∈ ch, cellAt b p = some v) (hv1 : 1 ≤ v) :
    (∀ p ∈ ch, p ≠ lastCell ch → cellAt (mergeStep b ch v) p = none) ∧
    cellAt (mergeStep b ch v) (lastCell ch) = some (2 * v) ∧
    countVal (simulate b ch v) (2 * v) = countVal b (2 * v) + 1 ∧
    countVal (simulate b ch v) v + ch.length = countVal b v := by
  have hsub : ch ⊆ allPositions b :=
    fun p hp => cellAt_some_mem hrect (hv p hp)
  refine ⟨?_, ?_, ?_, ?_⟩
  · intro p hp hpl
    obtain ⟨h1, h2⟩ := mem_allPositions.mp (hsub hp)
    rw [cellAt_mergeStep h1 h2]
    simp [mergeCell, hpl, hp]
  · obtain ⟨h1, h2⟩ := mem_allPositions.mp (hsub (lastCell_mem hne))
    rw [cellAt_mergeStep h1 h2]
    simp [mergeCell]
  · rw [show simulate b ch v = applyGravity (mergeStep b ch v) from rfl,
      countVal_applyGravity (isRect_mergeStep b ch v) (2 * v)]
    exact countVal_mergeStep_double hrect hnd hne hv hv1
  · rw [show simulate b ch v = applyGravity (mergeStep b ch v) from rfl,
      countVal_applyGravity (isRect_mergeStep b ch v) v]
    exact countVal_mergeStep_orig hrect hnd hne hv hv1

/-- Witness for C3 (amended) at the concrete 1×2 board of two 2-tiles with
its chain. -/
theorem C3_simulate_amended_witness :
    (isRect [[some 2, some 2]] = true ∧
     ([⟨0, 0⟩, ⟨0, 1⟩] : List Pos).Nodup ∧
     ([⟨0, 0⟩, ⟨0, 1⟩] : List Pos) ≠ [] ∧
     (∀ p ∈ ([⟨0, 0⟩, ⟨0, 1⟩] : List Pos),
       cellAt [[some 2, some 2]] p = some 2) ∧
     1 ≤ 2) ∧
    ((∀ p ∈ ([⟨0, 0⟩, ⟨0, 1⟩] : List Pos), p ≠ lastCell [⟨0, 0⟩, ⟨0, 1⟩] →
        cellAt (mergeStep [[some 2, some 2]] [⟨0, 0⟩, ⟨0, 1⟩] 2) p = none) ∧
     cellAt (mergeStep [[some 2, some 2]] [⟨0, 0⟩, ⟨0, 1⟩] 2)
        (lastCell [⟨0, 0⟩, ⟨0, 1⟩]) = some (2 * 2) ∧
     countVal (simulate [[some 2, some 2]] [⟨0, 0⟩, ⟨0, 1⟩] 2) (2 * 2) =
        countVal [[some 2, some 2]] (2 * 2) + 1 ∧
     countVal (simulate [[some 2, some 2]] [⟨0, 0⟩, ⟨0, 1⟩] 2) 2 +
        ([⟨0, 0⟩, ⟨0, 1⟩] : List Pos).length =
        countVal [[some 2, some 2]] 2) :=
  ⟨⟨by decide, by decide, by decide, by decide, by decide⟩,
   C3_simulate_amended [[some 2, some 2]] [⟨0, 0⟩, ⟨0, 1⟩] 2
     (by decide) (by decide) (by decide) (by decide) (by decide)⟩

theorem moveGE_refl (cols : Nat) (m : ScoredMove) : moveGE cols m m :=
  Or.inr ⟨rfl, Or.inr ⟨rfl, Nat.le_refl _⟩⟩

theorem moveGE_trans {cols : Nat} {a b c : ScoredMove}
    (h1 : moveGE cols a b) (h2 : moveGE cols b c) : moveGE cols a c := by
  unfold moveGE at h1 h2 ⊢
  omega

theorem chooseBetter_cases (cols : Nat) (cur cand : ScoredMove) :
    chooseBetter cols cur cand = cur ∨ chooseBetter cols cur cand = cand := by
  unfold chooseBetter
  split_ifs <;> simp

theorem chooseBetter_ge_left (cols : Nat) (cur cand : ScoredMove) :
    moveGE cols (chooseBetter cols cur cand) cur := by
  unfold chooseBetter
  split_ifs <;> unfold moveGE <;> omega

theorem chooseBetter_ge_right (cols : Nat) (cur cand : ScoredMove) :
    moveGE cols (chooseBetter cols cur cand) cand := by
  unfold chooseBetter
  split_ifs <;> unfold moveGE <;> omega

theorem foldl_chooseBetter_mem (cols : Nat) :
    ∀ (ms : List ScoredMove) (init : ScoredMove),
      ms.foldl (chooseBetter cols) init = init ∨
        ms.foldl (chooseBetter cols) init ∈ ms := by
  intro ms
  induction ms with
  | nil => intro init; exact Or.inl rfl
  | cons m ms ih =>
      intro init
      rcases ih (chooseBetter cols init m) with h | h
      · rcases chooseBetter_cases cols init m with hc | hc
        · left
          show (m :: ms).foldl (chooseBetter cols) init = init
          simpa [List.foldl_cons, hc] using h.trans hc
        · right
          show (m :: ms).foldl (chooseBetter cols) init ∈ m :: ms
          rw [List.foldl_cons]
          exact List.mem_cons.mpr (Or.inl (h.trans hc))
      · right
        rw [List.foldl_cons]
        exact List.mem_cons.mpr (Or.inr h)

theorem foldl_chooseBetter_ge (cols : Nat) :
    ∀ (ms : List ScoredMove) (init : ScoredMove),
      moveGE cols (ms.foldl (chooseBetter cols) init) init ∧
      ∀ m ∈ ms, moveGE cols (ms.foldl (chooseBetter cols) init) m := by
  intro ms
  induction ms with
  | nil => intro init; exact ⟨moveGE_refl cols init, by simp⟩
  | cons m ms ih =>
      intro init
      obtain ⟨h1, h2⟩ := ih (chooseBetter cols init m)
      constructor
      · exact moveGE_trans h1 (chooseBetter_ge_left cols init m)
      · intro x hx
        rcases List.mem_cons.mp hx with rfl | hx'
        · exact moveGE_trans h1 (chooseBetter_ge_right cols init x)
        · exact h2 x hx'

/-- C4: for a fixed `BoardState` and fixed `HeuristicWeights`, two runs of
evaluation-and-selection choose the identical move (the embedding is a pure
function, so the two runs agree definitionally), and every selected move is
one of the scored moves and is at least as good as every scored move under
the deterministic order: maximum weighted score, ties broken by longest
chain, then by earliest row-major position of the chain's first cell
(`moveGE`). -/
theorem C4_selection_deterministic (w : HeuristicWeights) (b : Board) :
    selectMove w b = selectMove w b ∧
    (∀ m, selectMove w b = some m →
      m ∈ (findChains b).map (evaluate w b) ∧
      ∀ m' ∈ (findChains b).map (evaluate w b),
        moveGE (boardCols b) m m') := by
  refine ⟨rfl, ?_⟩
  intro m hm
  unfold selectMove at hm
  cases hmap : (findChains b).map (evaluate w b) with
  | nil => rw [hmap] at hm; cases hm
  | cons m0 ms =>
      rw [hmap] at hm
      have hm' : ms.foldl (chooseBetter (boardCols b)) m0 = m :=
        Option.some_injective _ hm
      obtain ⟨h1, h2⟩ := foldl_chooseBetter_ge (boardCols b) ms m0
      constructor
      · rw [← hm']
        rcases foldl_chooseBetter_mem (boardCols b) ms m0 with h | h
        · rw [h]; exact List.mem_cons_self m0 ms
        · exact List.mem_cons_of_mem m0 h
      · intro m' hm''
        rw [← hm']
        rcases List.mem_cons.mp hm'' with rfl | hx'
        · exact h1
        · exact h2 m' hx'

/-- Witness for C4 at concrete weights and board: the single chain of the
2×2 board is selected with its computed score. -/
theorem C4_selection_deterministic_witness :
    selectMove ⟨1, 1, 1, 1, 1⟩ [[some 2, some 2], [none, some 4]] =
      some ⟨[⟨0, 0⟩, ⟨0, 1⟩], 8⟩ ∧
    (⟨[⟨0, 0⟩, ⟨0, 1⟩], 8⟩ : ScoredMove) ∈
      (findChains [[some 2, some 2], [none, some 4]]).map
        (evaluate ⟨1, 1, 1, 1, 1⟩ [[some 2, some 2], [none, some 4]]) ∧
    ∀ m' ∈ (findChains [[some 2, some 2], [none, some 4]]).map
        (evaluate ⟨1, 1, 1, 1, 1⟩ [[some 2, some 2], [none, some 4]]),
      moveGE (boardCols [[some 2, some 2], [none, some 4]])
        ⟨[⟨0, 0⟩, ⟨0, 1⟩], 8⟩ m' :=
  ⟨by decide,
   ((C4_selection_deterministic ⟨1, 1, 1, 1, 1⟩
      [[some 2, some 2], [none, some 4]]).2
      ⟨[⟨0, 0⟩, ⟨0, 1⟩], 8⟩ (by decide)).1,
   ((C4_selection_deterministic ⟨1, 1, 1, 1, 1⟩
      [[some 2, some 2], [none, some 4]]).2
      ⟨[⟨0, 0⟩, ⟨0, 1⟩], 8⟩ (by decide)).2⟩

theorem foldl_loopStep_stalled (bs : List Board) :
    ∀ (s : LoopState), s.phase = .stalled →
      (bs.foldl loopStep s).phase = .stalled := by
  induction bs with
  | nil => intro s h; exact h
  | cons b bs ih =>
      intro s h
      rw [List.foldl_cons]
      have hstep : loopStep s b = s := by
        simp [loopStep, h]
      rw [hstep]
      exact ih s h

theorem pair_cons_iff (b : Board) (bs : List Board) :
    (∃ i b0, (b :: bs)[i]? = some b0 ∧ (b :: bs)[i + 1]? = some b0 ∧
        findChains b0 = []) ↔
      ((bs[0]? = some b ∧ findChains b = []) ∨
       (∃ i b0, bs[i]? = some b0 ∧ bs[i + 1]? = some b0 ∧
         findChains b0 = [])) := by
  constructor
  · rintro ⟨i, b0, h1, h2, h3⟩
    cases i with
    | zero =>
        left
        rw [List.getElem?_cons_zero] at h1
        injection h1 with h1
        rw [List.getElem?_cons_succ] at h2
        subst h1
        exact ⟨h2, h3⟩
    | succ j =>
        right
        rw [List.getElem?_cons_succ] at h1 h2
        exact ⟨j, b0, h1, h2, h3⟩
  · rintro (⟨h1, h2⟩ | ⟨i, b0, h1, h2, h3⟩)
    · exact ⟨0, b, List.getElem?_cons_zero, by
        rw [List.getElem?_cons_succ]; exact h1, h2⟩
    · exact ⟨i + 1, b0, by rw [List.getElem?_cons_succ]; exact h1, by
        rw [List.getElem?_cons_succ]; exact h2, h3⟩

theorem runLoop_stalled_aux :
    ∀ (bs : List Board) (prev : Option Board),
      ((bs.foldl loopStep ⟨.running, prev⟩).phase = .stalled ↔
        ((∃ b0, prev = some b0 ∧ bs[0]? = some b0 ∧ findChains b0 = []) ∨
         (∃ i b0, bs[i]? = some b0 ∧ bs[i + 1]? = some b0 ∧
           findChains b0 = []))) := by
  intro bs
  induction bs with
  | nil =>
      intro prev
      simp [LoopPhase.running, show (LoopPhase.running ≠ LoopPhase.stalled)
        from fun h => by cases h]
  | cons b bs ih =>
      intro prev
      rw [List.foldl_cons, pair_cons_iff]
      by_cases hzero : findChains b = []
      · by_cases hprev : prev = some b
        · have hstep : loopStep ⟨.running, prev⟩ b = ⟨.stalled, some b⟩ := by
            simp [loopStep, hzero, hprev]
          rw [hstep]
          have hstall := foldl_loopStep_stalled bs ⟨.stalled, some b⟩ rfl
          simp only [hstall]
          constructor
          · intro _
            left
            exact ⟨b, hprev, List.getElem?_cons_zero, hzero⟩
          · intro _
            trivial
        · have hstep : loopStep ⟨.running, prev⟩ b = ⟨.running, some b⟩ := by
            simp [loopStep, hzero, hprev]
          rw [hstep, ih (some b)]
          constructor
          · rintro (⟨b0, he, h1, h2⟩ | h)
            · injection he with he
              subst he
              exact Or.inr (Or.inl ⟨h1, h2⟩)
            · exact Or.inr (Or.inr h)
          · rintro (⟨b0, he, h1, h2⟩ | (⟨h1, h2⟩ | h))
            · rw [List.getElem?_cons_zero] at h1
              injection h1 with h1
              subst h1
              exact absurd he hprev
            · exact Or.inl ⟨b, rfl, h1, h2⟩
            · exact Or.inr h
      · have hstep : loopStep ⟨.running, prev⟩ b = ⟨.running, none⟩ := by
          simp [loopStep, hzero]
        rw [hstep, ih none]
        constructor
        · rintro (⟨b0, he, _, _⟩ | h)
          · cases he
          · exact Or.inr (Or.inr h)
        · rintro (⟨b0, _, h1, h2⟩ | (⟨h1, h2⟩ | h))
          · rw [List.getElem?_cons_zero] at h1
            injection h1 with h1
            subst h1
            exact absurd h2 hzero
          · exact absurd h2 hzero
          · exact Or.inr h

/-- C7: the Decision Loop enters the terminal `STALLED` state exactly when
`findChains` yields zero candidate moves on two consecutive cycles with an
unchanged `BoardState`; a single zero-candidate cycle (from a state with no
recorded no-move cycle) never transitions to `STALLED`; and `STALLED` is
reported as a normal terminal outcome, never as an error. -/
theorem C7_stalled (bs : List Board) :
    ((runLoop bs).phase = .stalled ↔
      ∃ i b0, bs[i]? = some b0 ∧ bs[i + 1]? = some b0 ∧
        findChains b0 = []) ∧
    (∀ b, (runLoop [b]).phase = .running) ∧
    (∀ s b, s.phase = .running → s.lastNoMoveBoard = none →
      (loopStep s b).phase = .running) ∧
    reportPhase .stalled = some .normalTerminal ∧
    reportPhase .stalled ≠ some .error := by
  refine ⟨?_, ?_, ?_, rfl, by intro h; injection h with h; cases h⟩
  · have h := runLoop_stalled_aux bs none
    unfold runLoop initLoopState
    rw [h]
    constructor
    · rintro (⟨b0, he, _, _⟩ | h)
      · cases he
      · exact h
    · intro h'
      exact Or.inr h'
  · intro b
    show (loopStep ⟨.running, none⟩ b).phase = .running
    by_cases hzero : findChains b = [] <;> simp [loopStep, hzero]
  · intro s b h1 h2
    cases s with
    | mk ph lb =>
        simp only at h1 h2
        subst h1
        subst h2
        by_cases hzero : findChains b = [] <;> simp [loopStep, hzero]

/-- Witness for C7: a board with no equal adjacent tiles repeated on two
consecutive cycles stalls the loop, while a single such cycle leaves it
running. -/
theorem C7_stalled_witness :
    (runLoop [[[some 2, some 4]], [[some 2, some 4]]]).phase =
      LoopPhase.stalled ∧
    (runLoop [[[some 2, some 4]]]).phase = LoopPhase.running :=
  ⟨(C7_stalled [[[some 2, some 4]], [[some 2, some 4]]]).1.mpr
      ⟨0, [[some 2, some 4]], rfl, rfl, by decide⟩,
   (C7_stalled [[[some 2, some 4]]]).2.1 [[some 2, some 4]]⟩

end Vacuum
